import Mathlib

/-!
Verification of the `deno-tools` single-file zip utility (`1zip`).

The CLI glue (`compressPath`, `addDirectoryToZip`, `decompressZip`, `main`)
is embedded directly from the source file.  The ZIP container core
(Archive Writer, Archive Reader, Entry Codec, CRC-32 engine) is delegated by
the source to an external library; following the specification's component
design (sections 4.1-4.5 and 6) it is modelled here from the spec.
-/

namespace Zip

/-- Byte sequences are lists of naturals; a well-formed byte is `< 256`. -/
abbrev Bytes := List Nat

/-- Modelled from the spec: Binary Cursor `writeU16`, little-endian (4.1). -/
def u16Bytes (v : Nat) : Bytes := [v % 256, v / 256 % 256]

/-- Modelled from the spec: Binary Cursor `writeU32`, little-endian (4.1). -/
def u32Bytes (v : Nat) : Bytes :=
  [v % 256, v / 256 % 256, v / 65536 % 256, v / 16777216 % 256]

/-- Modelled from the spec: Binary Cursor `readU16` at the front of the
remaining input, failing on truncated input (4.1). -/
def takeU16 : Bytes → Option (Nat × Bytes)
  | b0 :: b1 :: r => some (b0 + 256 * b1, r)
  | _ => none

/-- Modelled from the spec: Binary Cursor `readU32` at the front of the
remaining input, failing on truncated input (4.1). -/
def takeU32 : Bytes → Option (Nat × Bytes)
  | b0 :: b1 :: b2 :: b3 :: r =>
      some (b0 + 256 * b1 + 65536 * b2 + 16777216 * b3, r)
  | _ => none

/-- Modelled from the spec: read `n` raw bytes from the front of the
remaining input, failing on truncated input (4.1). -/
def takeBytes (n : Nat) (d : Bytes) : Option (Bytes × Bytes) :=
  if n ≤ d.length then some (d.take n, d.drop n) else none

/-- Consume an expected literal byte sequence (signature check, spec 4.3). -/
def takeExact (sig : Bytes) (d : Bytes) : Option Bytes :=
  match takeBytes sig.length d with
  | some (s, r) => if s = sig then some r else none
  | none => none

theorem takeU16_append (v : Nat) (r : Bytes) (h : v < 2 ^ 16) :
    takeU16 (u16Bytes v ++ r) = some (v, r) := by
  simp only [u16Bytes, List.cons_append, List.nil_append, takeU16,
    Option.some.injEq, Prod.mk.injEq, and_true]
  omega

theorem takeU32_append (v : Nat) (r : Bytes) (h : v < 2 ^ 32) :
    takeU32 (u32Bytes v ++ r) = some (v, r) := by
  simp only [u32Bytes, List.cons_append, List.nil_append, takeU32,
    Option.some.injEq, Prod.mk.injEq, and_true]
  omega

theorem takeBytes_append (a r : Bytes) :
    takeBytes a.length (a ++ r) = some (a, r) := by
  simp [takeBytes, List.take_left, List.drop_left]

theorem takeExact_append (s r : Bytes) : takeExact s (s ++ r) = some r := by
  simp [takeExact, takeBytes_append]

/-- Modelled from the spec: the reflected CRC-32 polynomial 0xEDB88320 (4.2). -/
def crcPoly : Nat := 3988292384

/-- One bit step of the bitwise CRC-32 register update (spec 4.2). -/
def crcStep1 (s : Nat) : Nat :=
  (s >>> 1) ^^^ (if s % 2 = 1 then crcPoly else 0)

/-- Eight bit steps of the CRC-32 register update, one per bit of a byte
(spec 4.2). -/
def crcStep8 (s : Nat) : Nat :=
  crcStep1 (crcStep1 (crcStep1 (crcStep1 (crcStep1 (crcStep1 (crcStep1
    (crcStep1 s)))))))

/-- Absorb one data byte into the CRC-32 register (spec 4.2). -/
def crcUpdate (s b : Nat) : Nat := crcStep8 (s ^^^ b)

/-- Modelled from the spec: `crc32(bytes)`, the CRC-32 Engine; initial value
0xFFFFFFFF, reflected polynomial 0xEDB88320, final value complemented (4.2). -/
def crc32 (bs : Bytes) : Nat := (bs.foldl crcUpdate 4294967295) ^^^ 4294967295

theorem crcStep1_lt {s : Nat} (h : s < 2 ^ 32) : crcStep1 s < 2 ^ 32 := by
  have h1 : s >>> 1 < 2 ^ 32 := by rw [Nat.shiftRight_eq_div_pow]; omega
  have h2 : (if s % 2 = 1 then crcPoly else 0) < 2 ^ 32 := by
    split <;> norm_num [crcPoly]
  exact Nat.xor_lt_two_pow h1 h2

theorem crcPoly_testBit31 : crcPoly.testBit 31 = true := by decide

theorem two_pow_31_le_xor_crcPoly {a : Nat} (ha : a < 2 ^ 31) :
    2 ^ 31 ≤ a ^^^ crcPoly := by
  by_contra hcon
  push_neg at hcon
  have hx : (a ^^^ crcPoly).testBit 31 = false := Nat.testBit_lt_two_pow hcon
  have ha31 : a.testBit 31 = false := Nat.testBit_lt_two_pow ha
  rw [Nat.testBit_xor, ha31, crcPoly_testBit31] at hx
  simp at hx

theorem crcStep1_inj {a b : Nat} (ha : a < 2 ^ 32) (hb : b < 2 ^ 32)
    (h : crcStep1 a = crcStep1 b) : a = b := by
  unfold crcStep1 at h
  rw [Nat.shiftRight_eq_div_pow, Nat.shiftRight_eq_div_pow, pow_one] at h
  rcases Nat.mod_two_eq_zero_or_one a with h2a | h2a <;>
    rcases Nat.mod_two_eq_zero_or_one b with h2b | h2b
  · simp [h2a, h2b] at h
    omega
  · simp [h2a, h2b] at h
    have hB : b / 2 < 2 ^ 31 := by omega
    have := two_pow_31_le_xor_crcPoly hB
    omega
  · simp [h2a, h2b] at h
    have hA : a / 2 < 2 ^ 31 := by omega
    have := two_pow_31_le_xor_crcPoly hA
    omega
  · simp [h2a, h2b] at h
    omega

theorem crcStep8_lt {s : Nat} (h : s < 2 ^ 32) : crcStep8 s < 2 ^ 32 :=
  crcStep1_lt (crcStep1_lt (crcStep1_lt (crcStep1_lt (crcStep1_lt
    (crcStep1_lt (crcStep1_lt (crcStep1_lt h)))))))

theorem crcStep8_inj {a b : Nat} (ha : a < 2 ^ 32) (hb : b < 2 ^ 32)
    (h : crcStep8 a = crcStep8 b) : a = b := by
  unfold crcStep8 at h
  have ha1 := crcStep1_lt ha
  have ha2 := crcStep1_lt ha1
  have ha3 := crcStep1_lt ha2
  have ha4 := crcStep1_lt ha3
  have ha5 := crcStep1_lt ha4
  have ha6 := crcStep1_lt ha5
  have ha7 := crcStep1_lt ha6
  have hb1 := crcStep1_lt hb
  have hb2 := crcStep1_lt hb1
  have hb3 := crcStep1_lt hb2
  have hb4 := crcStep1_lt hb3
  have hb5 := crcStep1_lt hb4
  have hb6 := crcStep1_lt hb5
  have hb7 := crcStep1_lt hb6
  exact crcStep1_inj ha hb (crcStep1_inj ha1 hb1 (crcStep1_inj ha2 hb2
    (crcStep1_inj ha3 hb3 (crcStep1_inj ha4 hb4 (crcStep1_inj ha5 hb5
      (crcStep1_inj ha6 hb6 (crcStep1_inj ha7 hb7 h)))))))

theorem crcUpdate_lt {s b : Nat} (hs : s < 2 ^ 32) (hb : b < 256) :
    crcUpdate s b < 2 ^ 32 :=
  crcStep8_lt (Nat.xor_lt_two_pow hs (by omega))

theorem crcUpdate_inj_state {s t b : Nat} (hs : s < 2 ^ 32) (ht : t < 2 ^ 32)
    (hb : b < 256) (h : crcUpdate s b = crcUpdate t b) : s = t := by
  have hxs : s ^^^ b < 2 ^ 32 := Nat.xor_lt_two_pow hs (by omega)
  have hxt : t ^^^ b < 2 ^ 32 := Nat.xor_lt_two_pow ht (by omega)
  have := crcStep8_inj hxs hxt h
  exact Nat.xor_left_inj.mp this

theorem crcUpdate_inj_byte {s b c : Nat} (hs : s < 2 ^ 32) (hb : b < 256)
    (hc : c < 256) (hne : b ≠ c) : crcUpdate s b ≠ crcUpdate s c := by
  intro h
  have hxb : s ^^^ b < 2 ^ 32 := Nat.xor_lt_two_pow hs (by omega)
  have hxc : s ^^^ c < 2 ^ 32 := Nat.xor_lt_two_pow hs (by omega)
  exact hne (Nat.xor_right_inj.mp (crcStep8_inj hxb hxc h))

theorem foldl_crcUpdate_lt (l : Bytes) (s : Nat) (hs : s < 2 ^ 32)
    (hl : ∀ x ∈ l, x < 256) : l.foldl crcUpdate s < 2 ^ 32 := by
  induction l generalizing s with
  | nil => exact hs
  | cons b t ih =>
    simp only [List.foldl_cons]
    exact ih _ (crcUpdate_lt hs (hl b (by simp)))
      (fun x hx => hl x (by simp [hx]))

theorem foldl_crcUpdate_ne (l : Bytes) (s t : Nat) (hs : s < 2 ^ 32)
    (ht : t < 2 ^ 32) (hne : s ≠ t) (hl : ∀ x ∈ l, x < 256) :
    l.foldl crcUpdate s ≠ l.foldl crcUpdate t := by
  induction l generalizing s t with
  | nil => exact hne
  | cons b tl ih =>
    simp only [List.foldl_cons]
    have hb : b < 256 := hl b (by simp)
    exact ih _ _ (crcUpdate_lt hs hb) (crcUpdate_lt ht hb)
      (fun h => hne (crcUpdate_inj_state hs ht hb h))
      (fun x hx => hl x (by simp [hx]))

theorem crc32_lt (l : Bytes) (hl : ∀ x ∈ l, x < 256) : crc32 l < 2 ^ 32 :=
  Nat.xor_lt_two_pow (foldl_crcUpdate_lt l _ (by omega) hl) (by omega)

theorem crc32_append_ne (p : Bytes) (b c : Nat) (s : Bytes)
    (hp : ∀ x ∈ p, x < 256) (hs : ∀ x ∈ s, x < 256)
    (hb : b < 256) (hc : c < 256) (hne : b ≠ c) :
    crc32 (p ++ b :: s) ≠ crc32 (p ++ c :: s) := by
  unfold crc32
  intro h
  have h2 := Nat.xor_left_inj.mp h
  rw [List.foldl_append, List.foldl_append] at h2
  simp only [List.foldl_cons] at h2
  have hS : p.foldl crcUpdate 4294967295 < 2 ^ 32 :=
    foldl_crcUpdate_lt p _ (by omega) hp
  exact foldl_crcUpdate_ne s _ _ (crcUpdate_lt hS hb) (crcUpdate_lt hS hc)
    (crcUpdate_inj_byte hS hb hc hne) hs h2

/-- Flip bit `j` of the byte at index `i` of a byte sequence. -/
def flipBit (c : Bytes) (i j : Nat) : Bytes :=
  c.take i ++ (c.getD i 0 ^^^ 2 ^ j) :: c.drop (i + 1)

theorem getD_mem (l : Bytes) (i : Nat) (h : i < l.length) : l.getD i 0 ∈ l := by
  induction l generalizing i with
  | nil => simp at h
  | cons x t ih =>
    cases i with
    | zero => simp [List.getD]
    | succ k =>
      rw [List.getD_cons_succ]
      exact List.mem_cons_of_mem _ (ih k (by simpa using h))

theorem list_decomp (c : Bytes) (i : Nat) (hi : i < c.length) :
    c = c.take i ++ c.getD i 0 :: c.drop (i + 1) := by
  induction c generalizing i with
  | nil => simp at hi
  | cons x t ih =>
    cases i with
    | zero => simp [List.getD]
    | succ k =>
      simp only [List.take_succ_cons, List.drop_succ_cons, List.cons_append,
        List.cons.injEq, true_and]
      exact ih k (by simpa using hi)

theorem flipBit_length (c : Bytes) (i j : Nat) (hi : i < c.length) :
    (flipBit c i j).length = c.length := by
  simp only [flipBit, List.length_append, List.length_cons, List.length_take,
    List.length_drop]
  omega

theorem flipBit_mem_lt (c : Bytes) (i j : Nat) (hc : ∀ x ∈ c, x < 256)
    (hj : j < 8) : ∀ x ∈ flipBit c i j, x < 256 := by
  have h2j : (2 : Nat) ^ j < 256 := by
    calc (2 : Nat) ^ j < 2 ^ 8 := Nat.pow_lt_pow_right (by norm_num) hj
    _ = 256 := by norm_num
  have hb : c.getD i 0 < 256 := by
    by_cases hmem : i < c.length
    · exact hc _ (getD_mem c i hmem)
    · rw [List.getD_eq_default _ _ (by omega)]
      norm_num
  have hb2 : c.getD i 0 ^^^ 2 ^ j < 256 := by
    have := Nat.xor_lt_two_pow (show c.getD i 0 < 2 ^ 8 by omega)
      (show (2 : Nat) ^ j < 2 ^ 8 by omega)
    omega
  intro x hx
  simp only [flipBit] at hx
  rcases List.mem_append.mp hx with hx | hx
  · exact hc x (List.mem_of_mem_take hx)
  · rcases List.mem_cons.mp hx with hx | hx
    · rw [hx]; exact hb2
    · exact hc x (List.mem_of_mem_drop hx)

theorem crc32_flipBit_ne (c : Bytes) (i j : Nat) (hc : ∀ x ∈ c, x < 256)
    (hi : i < c.length) (hj : j < 8) : crc32 (flipBit c i j) ≠ crc32 c := by
  have hd := list_decomp c i hi
  have hb : c.getD i 0 < 256 := hc _ (getD_mem c i hi)
  have h2j : (2 : Nat) ^ j < 256 := by
    calc (2 : Nat) ^ j < 2 ^ 8 := Nat.pow_lt_pow_right (by norm_num) hj
    _ = 256 := by norm_num
  have hb2 : c.getD i 0 ^^^ 2 ^ j < 256 := by
    have := Nat.xor_lt_two_pow (show c.getD i 0 < 2 ^ 8 by omega)
      (show (2 : Nat) ^ j < 2 ^ 8 by omega)
    omega
  have hne : c.getD i 0 ^^^ 2 ^ j ≠ c.getD i 0 := by
    intro h
    have h0 : c.getD i 0 ^^^ 2 ^ j = c.getD i 0 ^^^ 0 := by
      rw [Nat.xor_zero]; exact h
    have := Nat.xor_right_inj.mp h0
    have hpos : 0 < (2 : Nat) ^ j := Nat.pos_pow_of_pos j (by norm_num)
    omega
  have htk : ∀ x ∈ c.take i, x < 256 :=
    fun x hx => hc x (List.mem_of_mem_take hx)
  have hdr : ∀ x ∈ c.drop (i + 1), x < 256 :=
    fun x hx => hc x (List.mem_of_mem_drop hx)
  have hmain := crc32_append_ne (c.take i) (c.getD i 0 ^^^ 2 ^ j) (c.getD i 0)
    (c.drop (i + 1)) htk hdr hb2 hb hne
  unfold flipBit
  intro hcon
  apply hmain
  rw [hcon]
  exact congrArg crc32 hd

/-- Modelled from the spec: the Writer and Reader error taxonomy (section 7). -/
inductive ZipError where
  | InvalidPath
  | DuplicateEntry
  | ArchiveSealed
  | TruncatedInput
  | MalformedEntry
  | NotAnArchive
  | MalformedArchive
  | IntegrityError
  | EntryNotFound
deriving DecidableEq

/-- A path is absolute when it starts with a forward slash (byte 47). -/
def isAbsPath : Bytes → Bool
  | 47 :: _ => true
  | _ => false

/-- A path contains a `..` segment when splitting on forward slashes yields
a `..` component (bytes 46, 46). -/
def hasDotDot (n : Bytes) : Bool := (n.splitOn 47).contains [46, 46]

/-- Modelled from the spec: `addFile` path validity — relative,
forward-slash separated, no `..` segments (sections 3 and 4.4). -/
def pathOk (n : Bytes) : Bool := !(isAbsPath n) && !(hasDotDot n)

/-- A central directory member descriptor (spec sections 3 and 4.3). -/
structure CDRec where
  name : Bytes
  crc : Nat
  compSize : Nat
  uncompSize : Nat
  offset : Nat
  extAttrs : Nat
deriving DecidableEq

/-- Archive Writer state: serialized local entries so far, pending central
directory records, used names, and the seal flag (spec 4.4). -/
structure Writer where
  data : Bytes
  cdir : List CDRec
  names : List Bytes
  sealed : Bool
deriving DecidableEq

def locSig : Bytes := [80, 75, 3, 4]

def cdSig : Bytes := [80, 75, 1, 2]

def eocdSig : Bytes := [80, 75, 5, 6]

/-- Local File Header with an explicit CRC field value, followed by the raw
stored content (spec 4.3): signature, version-needed, flags=0, method=0
(stored), fixed time/date placeholder, CRC-32, compressed size,
uncompressed size (equal under the stored method), name length, name bytes,
then the content with no compression transform. -/
def localBlockG (n : Bytes) (crc : Nat) (c : Bytes) : Bytes :=
  locSig ++ u16Bytes 20 ++ u16Bytes 0 ++ u16Bytes 0 ++ u16Bytes 0 ++
    u16Bytes 0 ++ u32Bytes crc ++ u32Bytes c.length ++ u32Bytes c.length ++
    u16Bytes n.length ++ n ++ c

/-- Local entry block as the Writer emits it: CRC computed from content. -/
def localBlock (n c : Bytes) : Bytes := localBlockG n (crc32 c) c

/-- Serialized Central Directory Record (spec 4.3): signature, the same
size, crc and name fields, plus local header offset and external
attributes. -/
def cdRecBytes (r : CDRec) : Bytes :=
  cdSig ++ u32Bytes r.crc ++ u32Bytes r.compSize ++ u32Bytes r.uncompSize ++
    u16Bytes r.name.length ++ u32Bytes r.offset ++ u32Bytes r.extAttrs ++
    r.name

/-- Serialized EndOfCentralDirectoryRecord (spec 4.4): signature, entry
count, central directory byte length, central directory start offset,
zero-length comment. -/
def eocdBytes (count cdSize cdOffset : Nat) : Bytes :=
  eocdSig ++ u16Bytes count ++ u32Bytes cdSize ++ u32Bytes cdOffset ++
    u16Bytes 0

/-- Modelled from the spec: `begin()` — a new empty archive builder (4.4). -/
def beginWriter : Writer := ⟨[], [], [], false⟩

/-- Modelled from the spec: `addFile(path, bytes)` — fails with
`ArchiveSealed` after `finalize`, with `InvalidPath` on absolute or `..`
paths, with `DuplicateEntry` on a reused name; otherwise serializes a Local
File Header plus stored content at the current write position and records a
pending Central Directory Record holding that offset (4.4).  Paths are taken
as forward-slash byte strings, so the spec's slash normalization step is the
identity on them. -/
def addFile (w : Writer) (n c : Bytes) : Except ZipError Writer :=
  if w.sealed then .error .ArchiveSealed
  else if !(pathOk n) then .error .InvalidPath
  else if n ∈ w.names then .error .DuplicateEntry
  else .ok ⟨w.data ++ localBlock n c,
    w.cdir ++ [⟨n, crc32 c, c.length, c.length, w.data.length, 0⟩],
    n :: w.names, false⟩

/-- Modelled from the spec: `finalize()` — append every pending Central
Directory Record in insertion order, then one EndOfCentralDirectoryRecord;
the returned byte buffer is immutable (4.4). -/
def finalizeBytes (w : Writer) : Bytes :=
  w.data ++ (w.cdir.map cdRecBytes).flatten ++
    eocdBytes w.cdir.length ((w.cdir.map cdRecBytes).flatten).length
      w.data.length

/-- The `write(pairs)` phase of the round-trip property (spec section 8):
add every (path, bytes) pair in order, starting from `begin()`. -/
def writeAll (pairs : List (Bytes × Bytes)) : Except ZipError Writer :=
  pairs.foldlM (fun w p => addFile w p.1 p.2) beginWriter

/-- The full Writer pipeline `finalize(write(pairs))` (spec section 8). -/
def writePairs (pairs : List (Bytes × Bytes)) : Except ZipError Bytes := do
  let w ← writeAll pairs
  pure (finalizeBytes w)

/-- One member as laid out in an archive buffer: name, the value stored in
the CRC fields, and the content region.  Writer output always has
`crc = crc32 content`; a corrupted buffer may not. -/
structure RawEntry where
  name : Bytes
  crc : Nat
  content : Bytes
deriving DecidableEq

def rawOf (pairs : List (Bytes × Bytes)) : List RawEntry :=
  pairs.map fun p => ⟨p.1, crc32 p.2, p.2⟩

def genData (items : List RawEntry) : Bytes :=
  (items.map fun e => localBlockG e.name e.crc e.content).flatten

def recsOf : List RawEntry → Nat → List CDRec
  | [], _ => []
  | e :: rest, off =>
      ⟨e.name, e.crc, e.content.length, e.content.length, off, 0⟩ ::
        recsOf rest (off + (localBlockG e.name e.crc e.content).length)

def genCd (items : List RawEntry) : Bytes :=
  ((recsOf items 0).map cdRecBytes).flatten

/-- The archive byte buffer laid out from a list of raw members: local
entry blocks, then the central directory, then the EOCD record. -/
def genArchive (items : List RawEntry) : Bytes :=
  genData items ++ genCd items ++
    eocdBytes items.length (genCd items).length (genData items).length

/-- Archive Reader state after `open` (spec 4.5): the raw buffer plus the
parsed ordered central directory. -/
structure Reader where
  data : Bytes
  entries : List CDRec
deriving DecidableEq

/-- Decode one Local File Header and its stored content (Entry Codec decode
direction, spec 4.3): validate the signature, read the fixed fields, the
name of declared length, then exactly `compressedSize` content bytes. -/
def parseLocalEntry (d : Bytes) : Option (Bytes × Nat × Bytes) := do
  let r ← takeExact locSig d
  let (_version, r) ← takeU16 r
  let (_flags, r) ← takeU16 r
  let (_method, r) ← takeU16 r
  let (_time, r) ← takeU16 r
  let (_date, r) ← takeU16 r
  let (crc, r) ← takeU32 r
  let (comp, r) ← takeU32 r
  let (_uncomp, r) ← takeU32 r
  let (nlen, r) ← takeU16 r
  let (nm, r) ← takeBytes nlen r
  let (content, _rest) ← takeBytes comp r
  pure (nm, crc, content)

/-- Decode one Central Directory Record (spec 4.3). -/
def parseCDRec (d : Bytes) : Option (CDRec × Bytes) := do
  let r ← takeExact cdSig d
  let (crc, r) ← takeU32 r
  let (comp, r) ← takeU32 r
  let (uncomp, r) ← takeU32 r
  let (nlen, r) ← takeU16 r
  let (off, r) ← takeU32 r
  let (ext, r) ← takeU32 r
  let (nm, r) ← takeBytes nlen r
  pure (⟨nm, crc, comp, uncomp, off, ext⟩, r)

/-- Decode exactly `count` Central Directory Records in sequence (spec 4.5). -/
def parseCDRecs : Nat → Bytes → Option (List CDRec × Bytes)
  | 0, d => some ([], d)
  | count + 1, d => do
      let (r, rest) ← parseCDRec d
      let (rs, rest2) ← parseCDRecs count rest
      pure (r :: rs, rest2)

/-- Decode the EndOfCentralDirectoryRecord: entry count, central directory
size, central directory start offset (spec 4.4 and 4.5). -/
def parseEocd (d : Bytes) : Option (Nat × Nat × Nat) := do
  let r ← takeExact eocdSig d
  let (count, r) ← takeU16 r
  let (cdSize, r) ← takeU32 r
  let (cdOffset, r) ← takeU32 r
  let (_commentLen, _r) ← takeU16 r
  pure (count, cdSize, cdOffset)

/-- The EOCD signature test at one candidate position of the backward scan
(spec 4.5). -/
def eocdSigAt (d : Bytes) (p : Nat) : Bool :=
  match d.drop p with
  | 80 :: 75 :: 5 :: 6 :: _ => true
  | _ => false

/-- Backward scan for the EOCD signature, moving from the end of the buffer
toward the front through a fuel window bounded by the format's maximum
comment length (spec 4.5). -/
def scanEocd (d : Bytes) : Nat → Nat → Option Nat
  | p, 0 => if eocdSigAt d p then some p else none
  | p, fuel + 1 =>
      if eocdSigAt d p then some p
      else
        match p with
        | 0 => none
        | q + 1 => scanEocd d q fuel

/-- Modelled from the spec: `open(bytes)` — locate the EOCD by scanning
backward (window of 65535 comment bytes), parse it, decode exactly
`entryCount` Central Directory Records at the stated offset, and check the
parsed directory byte length against the EOCD's stated size; any failure
aborts the whole open (4.5 and section 7). -/
def openArchive (d : Bytes) : Except ZipError Reader :=
  if d.length < 16 then .error .NotAnArchive
  else
    match scanEocd d (d.length - 16) 65535 with
    | none => .error .NotAnArchive
    | some p =>
      match parseEocd (d.drop p) with
      | none => .error .MalformedArchive
      | some (count, cdSize, cdOffset) =>
        match parseCDRecs count (d.drop cdOffset) with
        | none => .error .MalformedArchive
        | some (recs, rest) =>
          if (d.drop cdOffset).length = cdSize + rest.length then
            .ok ⟨d, recs⟩
          else .error .MalformedArchive

/-- Modelled from the spec: `listEntries()` — the ordered member
descriptors, no content materialization (4.5). -/
def listEntries (r : Reader) : List CDRec := r.entries

/-- Modelled from the spec: `readEntry(name)` — look up by exact name, seek
to the member local header offset, decode header and content, verify the
CRC-32 of the decoded content against the stored CRC field, failing with
`IntegrityError` on mismatch (4.5). -/
def readEntry (rd : Reader) (n : Bytes) : Except ZipError Bytes :=
  match rd.entries.find? (fun r => r.name == n) with
  | none => .error .EntryNotFound
  | some r =>
    match parseLocalEntry (rd.data.drop r.offset) with
    | none => .error .MalformedEntry
    | some (_nm, crc, content) =>
      if crc32 content = crc then .ok content else .error .IntegrityError

theorem localBlockG_length (n : Bytes) (crc : Nat) (c : Bytes) :
    (localBlockG n crc c).length = 28 + n.length + c.length := by
  simp [localBlockG, locSig, u16Bytes, u32Bytes]
  omega

theorem eocdBytes_length (count cdSize cdOffset : Nat) :
    (eocdBytes count cdSize cdOffset).length = 16 := by
  simp [eocdBytes, eocdSig, u16Bytes, u32Bytes]

theorem parseLocalEntry_append (n : Bytes) (crc : Nat) (c rest : Bytes)
    (hcrc : crc < 2 ^ 32) (hclen : c.length < 2 ^ 32)
    (hnlen : n.length < 2 ^ 16) :
    parseLocalEntry (localBlockG n crc c ++ rest) = some (n, crc, c) := by
  have hassoc : localBlockG n crc c ++ rest =
      locSig ++ (u16Bytes 20 ++ (u16Bytes 0 ++ (u16Bytes 0 ++ (u16Bytes 0 ++
        (u16Bytes 0 ++ (u32Bytes crc ++ (u32Bytes c.length ++
          (u32Bytes c.length ++ (u16Bytes n.length ++ (n ++ (c ++
            rest))))))))))) := by
    simp [localBlockG, List.append_assoc]
  have h1 : crc < 4294967296 := by omega
  have h2 : c.length < 4294967296 := by omega
  have h3 : n.length < 65536 := by omega
  rw [hassoc]
  simp [parseLocalEntry, takeExact_append, takeU16_append, takeU32_append,
    takeBytes_append, h1, h2, h3]

theorem parseCDRec_append (r : CDRec) (rest : Bytes)
    (hcrc : r.crc < 2 ^ 32) (hcomp : r.compSize < 2 ^ 32)
    (huncomp : r.uncompSize < 2 ^ 32) (hoff : r.offset < 2 ^ 32)
    (hext : r.extAttrs < 2 ^ 32) (hnlen : r.name.length < 2 ^ 16) :
    parseCDRec (cdRecBytes r ++ rest) = some (r, rest) := by
  have hassoc : cdRecBytes r ++ rest =
      cdSig ++ (u32Bytes r.crc ++ (u32Bytes r.compSize ++
        (u32Bytes r.uncompSize ++ (u16Bytes r.name.length ++
          (u32Bytes r.offset ++ (u32Bytes r.extAttrs ++ (r.name ++
            rest))))))) := by
    simp [cdRecBytes, List.append_assoc]
  have h1 : r.crc < 4294967296 := by omega
  have h2 : r.compSize < 4294967296 := by omega
  have h3 : r.uncompSize < 4294967296 := by omega
  have h4 : r.offset < 4294967296 := by omega
  have h5 : r.extAttrs < 4294967296 := by omega
  have h6 : r.name.length < 65536 := by omega
  rw [hassoc]
  simp [parseCDRec, takeExact_append, takeU16_append, takeU32_append,
    takeBytes_append, h1, h2, h3, h4, h5, h6]

theorem parseCDRecs_append (recs : List CDRec) (rest : Bytes)
    (hb : ∀ r ∈ recs, r.crc < 2 ^ 32 ∧ r.compSize < 2 ^ 32 ∧
      r.uncompSize < 2 ^ 32 ∧ r.offset < 2 ^ 32 ∧ r.extAttrs < 2 ^ 32 ∧
      r.name.length < 2 ^ 16) :
    parseCDRecs recs.length ((recs.map cdRecBytes).flatten ++ rest) =
      some (recs, rest) := by
  induction recs with
  | nil => simp [parseCDRecs]
  | cons r rs ih =>
    obtain ⟨h1, h2, h3, h4, h5, h6⟩ := hb r (by simp)
    simp only [List.map_cons, List.flatten_cons, List.length_cons,
      List.append_assoc]
    rw [parseCDRecs]
    rw [parseCDRec_append r _ h1 h2 h3 h4 h5 h6]
    simp [ih (fun x hx => hb x (by simp [hx]))]

theorem parseEocd_eocdBytes (count cdSize cdOffset : Nat)
    (hcount : count < 2 ^ 16) (hsize : cdSize < 2 ^ 32)
    (hoff : cdOffset < 2 ^ 32) :
    parseEocd (eocdBytes count cdSize cdOffset) =
      some (count, cdSize, cdOffset) := by
  have hassoc : eocdBytes count cdSize cdOffset =
      eocdSig ++ (u16Bytes count ++ (u32Bytes cdSize ++ (u32Bytes cdOffset ++
        (u16Bytes 0 ++ [])))) := by
    simp [eocdBytes, List.append_assoc]
  have h1 : count < 65536 := by omega
  have h2 : cdSize < 4294967296 := by omega
  have h3 : cdOffset < 4294967296 := by omega
  rw [hassoc]
  simp [parseEocd, takeExact_append, takeU16_append, takeU32_append,
    h1, h2, h3]
  simp [takeU16, u16Bytes]

theorem scanEocd_hit (d : Bytes) (p fuel : Nat) (h : eocdSigAt d p = true) :
    scanEocd d p fuel = some p := by
  cases fuel with
  | zero => unfold scanEocd; simp [h]
  | succ m => unfold scanEocd; simp [h]

theorem eocdSigAt_append (a : Bytes) (count cdSize cdOffset : Nat) :
    eocdSigAt (a ++ eocdBytes count cdSize cdOffset) a.length = true := by
  unfold eocdSigAt
  rw [List.drop_left]
  simp [eocdBytes, eocdSig, u16Bytes, u32Bytes]

theorem recsOf_length (items : List RawEntry) (b : Nat) :
    (recsOf items b).length = items.length := by
  induction items generalizing b with
  | nil => rfl
  | cons e t ih => simp [recsOf, ih]

theorem recsOf_mem (items : List RawEntry) (b : Nat) :
    ∀ r ∈ recsOf items b, ∃ e ∈ items, r.name = e.name ∧ r.crc = e.crc ∧
      r.compSize = e.content.length ∧ r.uncompSize = e.content.length ∧
      r.extAttrs = 0 := by
  induction items generalizing b with
  | nil => simp [recsOf]
  | cons e t ih =>
    intro r hr
    rw [recsOf] at hr
    rcases List.mem_cons.mp hr with hhd | hr
    · exact ⟨e, by simp, by rw [hhd], by rw [hhd], by rw [hhd], by rw [hhd],
        by rw [hhd]⟩
    · obtain ⟨e2, he2, h⟩ := ih _ r hr
      exact ⟨e2, by simp [he2], h⟩

theorem recsOf_offset_le (items : List RawEntry) (b : Nat) :
    ∀ r ∈ recsOf items b, r.offset ≤ b + (genData items).length := by
  induction items generalizing b with
  | nil => simp [recsOf]
  | cons e t ih =>
    intro r hr
    rw [recsOf] at hr
    rcases List.mem_cons.mp hr with hhd | hr
    · rw [hhd]; simp
    · have := ih _ r hr
      simp only [genData, List.map_cons, List.flatten_cons, List.length_append]
      simp only [genData] at this
      omega

theorem parse_at_offset (items : List RawEntry) (pre tail : Bytes)
    (hvalid : ∀ e ∈ items, e.crc < 2 ^ 32 ∧ e.content.length < 2 ^ 32 ∧
      e.name.length < 2 ^ 16) :
    ∀ r ∈ recsOf items pre.length, ∃ e ∈ items, r.name = e.name ∧
      r.crc = e.crc ∧
      parseLocalEntry ((pre ++ (genData items ++ tail)).drop r.offset) =
        some (e.name, e.crc, e.content) := by
  induction items generalizing pre with
  | nil => simp [recsOf]
  | cons e0 t ih =>
    intro r hr
    rw [recsOf] at hr
    rcases List.mem_cons.mp hr with hhd | hr
    · refine ⟨e0, by simp, by rw [hhd], by rw [hhd], ?_⟩
      have hsplit : pre ++ (genData (e0 :: t) ++ tail) =
          pre ++ (localBlockG e0.name e0.crc e0.content ++
            (genData t ++ tail)) := by
        simp [genData, List.append_assoc]
      rw [hhd, hsplit]
      simp only [List.drop_left]
      obtain ⟨h1, h2, h3⟩ := hvalid e0 (by simp)
      exact parseLocalEntry_append e0.name e0.crc e0.content _ h1 h2 h3
    · have hlen : (pre ++ localBlockG e0.name e0.crc e0.content).length =
          pre.length + (localBlockG e0.name e0.crc e0.content).length := by
        simp
      have hr2 : r ∈ recsOf t
          (pre ++ localBlockG e0.name e0.crc e0.content).length := by
        rw [hlen]; exact hr
      obtain ⟨e2, he2, hn, hc, hp⟩ :=
        ih (pre ++ localBlockG e0.name e0.crc e0.content)
          (fun x hx => hvalid x (by simp [hx])) r hr2
      refine ⟨e2, by simp [he2], hn, hc, ?_⟩
      have heq : (pre ++ localBlockG e0.name e0.crc e0.content) ++
          (genData t ++ tail) = pre ++ (genData (e0 :: t) ++ tail) := by
        simp [genData, List.append_assoc]
      rw [heq] at hp
      exact hp

theorem recsOf_find (items : List RawEntry) (b : Nat) (n : Bytes)
    (hmem : n ∈ items.map RawEntry.name) :
    ∃ r, r ∈ recsOf items b ∧
      (recsOf items b).find? (fun r => r.name == n) = some r ∧ r.name = n := by
  induction items generalizing b with
  | nil => simp at hmem
  | cons e t ih =>
    by_cases he : e.name = n
    · refine ⟨⟨e.name, e.crc, e.content.length, e.content.length, b, 0⟩,
        ?_, ?_, he⟩
      · rw [recsOf]; simp
      · rw [recsOf]
        apply List.find?_cons_of_pos
        simp [he]
    · have hmem2 : n ∈ t.map RawEntry.name := by
        simp only [List.map_cons, List.mem_cons] at hmem
        rcases hmem with h | h
        · exact absurd h.symm he
        · exact h
      obtain ⟨r, hrmem, hfind, hrname⟩ :=
        ih (b + (localBlockG e.name e.crc e.content).length) hmem2
      refine ⟨r, ?_, ?_, hrname⟩
      · rw [recsOf]; simp [hrmem]
      · rw [recsOf]
        rw [List.find?_cons_of_neg]
        · exact hfind
        · simp [he]

theorem entry_name_unique (items : List RawEntry)
    (hnodup : (items.map RawEntry.name).Nodup) (a b : RawEntry)
    (ha : a ∈ items) (hb : b ∈ items) (h : a.name = b.name) : a = b := by
  induction items with
  | nil => simp at ha
  | cons e t ih =>
    simp only [List.map_cons, List.nodup_cons] at hnodup
    rcases List.mem_cons.mp ha with rfl | ha2 <;>
      rcases List.mem_cons.mp hb with rfl | hb2
    · rfl
    · exact absurd (by rw [h]; exact List.mem_map_of_mem RawEntry.name hb2)
        hnodup.1
    · exact absurd (by rw [← h]; exact List.mem_map_of_mem RawEntry.name ha2)
        hnodup.1
    · exact ih hnodup.2 ha2 hb2

/-- Validity of a raw member list for the byte-exact layout: field widths
fit the format's u16/u32 fields. -/
def validItems (items : List RawEntry) : Prop :=
  (∀ e ∈ items, e.crc < 2 ^ 32 ∧ e.content.length < 2 ^ 32 ∧
    e.name.length < 2 ^ 16) ∧
  items.length < 2 ^ 16 ∧ (genData items).length < 2 ^ 32 ∧
  (genCd items).length < 2 ^ 32

theorem openArchive_gen (items : List RawEntry) (hv : validItems items) :
    openArchive (genArchive items) = .ok ⟨genArchive items, recsOf items 0⟩ := by
  obtain ⟨hvalid, hcount, hdata, hcd⟩ := hv
  have harch : genArchive items = (genData items ++ genCd items) ++
      eocdBytes items.length (genCd items).length (genData items).length := by
    simp [genArchive, List.append_assoc]
  have hlen : (genArchive items).length =
      (genData items).length + (genCd items).length + 16 := by
    rw [harch]
    simp [eocdBytes_length]
    omega
  have hsum : (genData items).length + (genCd items).length =
      (genData items ++ genCd items).length := by
    simp
  have hpos : (genArchive items).length - 16 =
      (genData items).length + (genCd items).length := by
    omega
  have hsig : eocdSigAt (genArchive items)
      ((genData items).length + (genCd items).length) = true := by
    rw [hsum, harch]
    exact eocdSigAt_append _ _ _ _
  have hdrop1 : (genArchive items).drop
      ((genData items).length + (genCd items).length) =
      eocdBytes items.length (genCd items).length (genData items).length := by
    rw [hsum, harch]
    exact List.drop_left _ _
  have harch2 : genArchive items = genData items ++ (genCd items ++
      eocdBytes items.length (genCd items).length (genData items).length) := by
    simp [genArchive, List.append_assoc]
  have hdrop2 : (genArchive items).drop ((genData items).length) =
      genCd items ++
        eocdBytes items.length (genCd items).length (genData items).length := by
    rw [harch2]
    exact List.drop_left _ _
  have hbounds : ∀ r ∈ recsOf items 0, r.crc < 2 ^ 32 ∧
      r.compSize < 2 ^ 32 ∧ r.uncompSize < 2 ^ 32 ∧ r.offset < 2 ^ 32 ∧
      r.extAttrs < 2 ^ 32 ∧ r.name.length < 2 ^ 16 := by
    intro r hr
    obtain ⟨e, he, hn, hc, hcomp, huncomp, hext⟩ := recsOf_mem items 0 r hr
    obtain ⟨h1, h2, h3⟩ := hvalid e he
    have hoffle := recsOf_offset_le items 0 r hr
    refine ⟨by rw [hc]; exact h1, by rw [hcomp]; exact h2,
      by rw [huncomp]; exact h2, by omega, by rw [hext]; omega,
      by rw [hn]; exact h3⟩
  have hcdparse : parseCDRecs items.length
      (genCd items ++
        eocdBytes items.length (genCd items).length (genData items).length) =
      some (recsOf items 0,
        eocdBytes items.length (genCd items).length (genData items).length) := by
    have hp := parseCDRecs_append (recsOf items 0)
      (eocdBytes items.length (genCd items).length (genData items).length)
      hbounds
    rw [recsOf_length] at hp
    simpa [genCd] using hp
  unfold openArchive
  rw [if_neg (by omega)]
  rw [hpos, scanEocd_hit _ _ _ hsig]
  simp only [hdrop1, parseEocd_eocdBytes items.length (genCd items).length
    (genData items).length hcount hcd hdata, hdrop2, hcdparse]
  rw [if_pos (by simp [eocdBytes_length])]

theorem readEntry_gen (items : List RawEntry) (hv : validItems items)
    (hnodup : (items.map RawEntry.name).Nodup) (e : RawEntry)
    (he : e ∈ items) :
    readEntry ⟨genArchive items, recsOf items 0⟩ e.name =
      if crc32 e.content = e.crc then .ok e.content
      else .error .IntegrityError := by
  obtain ⟨hvalid, hcount, hdata, hcd⟩ := hv
  obtain ⟨r, hrmem, hfind, hrname⟩ := recsOf_find items 0 e.name
    (List.mem_map_of_mem RawEntry.name he)
  have hr0 : r ∈ recsOf items (List.length (([] : Bytes))) := by
    simpa using hrmem
  obtain ⟨e2, he2, hn2, hc2, hparse⟩ := parse_at_offset items []
    (genCd items ++
      eocdBytes items.length (genCd items).length (genData items).length)
    hvalid r hr0
  have harchEq : ([] : Bytes) ++ (genData items ++ (genCd items ++
      eocdBytes items.length (genCd items).length (genData items).length)) =
      genArchive items := by
    simp [genArchive, List.append_assoc]
  rw [harchEq] at hparse
  simp only [readEntry, hfind, hparse]
  have hee : e2 = e := entry_name_unique items hnodup e2 e he2 he
    (by rw [← hn2, hrname])
  rw [hee]

theorem except_bind_ok {ε α β : Type} (a : α) (f : α → Except ε β) :
    (Except.ok a >>= f) = f a := rfl

theorem writeAll_fold : ∀ (pairs : List (Bytes × Bytes)) (w : Writer),
    w.sealed = false → (∀ p ∈ pairs, pathOk p.1 = true) →
    (pairs.map Prod.fst).Nodup → (∀ p ∈ pairs, p.1 ∉ w.names) →
    pairs.foldlM (fun w p => addFile w p.1 p.2) w =
      .ok ⟨w.data ++ genData (rawOf pairs),
        w.cdir ++ recsOf (rawOf pairs) w.data.length,
        (pairs.map Prod.fst).reverse ++ w.names, false⟩
  | [], w, hw, _, _, _ => by
    cases w with
    | mk d cd nm sl =>
      simp only [List.foldlM_nil, rawOf, List.map_nil, genData, recsOf,
        List.flatten_nil, List.append_nil, List.reverse_nil, List.nil_append]
      simp at hw
      rw [hw]
      rfl
  | p :: rest, w, hw, hpaths, hnodup, hdisj => by
    simp only [List.map_cons, List.nodup_cons] at hnodup
    rw [List.foldlM_cons]
    have hadd : addFile w p.1 p.2 = .ok ⟨w.data ++ localBlock p.1 p.2,
        w.cdir ++ [⟨p.1, crc32 p.2, p.2.length, p.2.length, w.data.length, 0⟩],
        p.1 :: w.names, false⟩ := by
      unfold addFile
      rw [if_neg (by simp [hw]), if_neg (by simp [hpaths p (by simp)]),
        if_neg (hdisj p (by simp))]
    rw [hadd, except_bind_ok]
    have hdisj2 : ∀ q ∈ rest, q.1 ∉ p.1 :: w.names := by
      intro q hq
      simp only [List.mem_cons, not_or]
      constructor
      · intro hqp
        exact hnodup.1 (hqp ▸ List.mem_map_of_mem Prod.fst hq)
      · exact hdisj q (by simp [hq])
    rw [writeAll_fold rest _ rfl (fun q hq => hpaths q (by simp [hq]))
      hnodup.2 hdisj2]
    simp only [Except.ok.injEq, Writer.mk.injEq]
    refine ⟨?_, ?_, ?_, trivial⟩
    · simp [rawOf, genData, localBlock, List.append_assoc]
    · simp only [rawOf, List.map_cons, recsOf, List.length_append,
        localBlock, List.append_assoc, List.singleton_append]
    · simp [List.append_assoc]

theorem writeAll_ok (pairs : List (Bytes × Bytes))
    (hpaths : ∀ p ∈ pairs, pathOk p.1 = true)
    (hnodup : (pairs.map Prod.fst).Nodup) :
    writeAll pairs = .ok ⟨genData (rawOf pairs), recsOf (rawOf pairs) 0,
      (pairs.map Prod.fst).reverse, false⟩ := by
  have := writeAll_fold pairs beginWriter rfl hpaths hnodup
    (by simp [beginWriter])
  simpa [writeAll, beginWriter] using this

theorem writePairs_ok (pairs : List (Bytes × Bytes))
    (hpaths : ∀ p ∈ pairs, pathOk p.1 = true)
    (hnodup : (pairs.map Prod.fst).Nodup) :
    writePairs pairs = .ok (genArchive (rawOf pairs)) := by
  unfold writePairs
  rw [writeAll_ok pairs hpaths hnodup, except_bind_ok]
  simp only [genArchive, finalizeBytes, genCd, recsOf_length]
  rfl

/-- Validity of a list of (path, bytes) pairs for the round-trip property:
paths are valid member names, bytes are bytes, and all fields fit the
format's u16/u32 widths (spec sections 3 and 6). -/
@[reducible]
def validPairs (pairs : List (Bytes × Bytes)) : Prop :=
  (∀ p ∈ pairs, pathOk p.1 = true ∧ (∀ b ∈ p.1, b < 256) ∧
    p.1.length < 2 ^ 16 ∧ (∀ b ∈ p.2, b < 256) ∧ p.2.length < 2 ^ 32) ∧
  (pairs.map Prod.fst).Nodup ∧ pairs.length < 2 ^ 16 ∧
  (genData (rawOf pairs)).length < 2 ^ 32 ∧
  (genCd (rawOf pairs)).length < 2 ^ 32

theorem rawOf_names (pairs : List (Bytes × Bytes)) :
    (rawOf pairs).map RawEntry.name = pairs.map Prod.fst := by
  simp [rawOf, List.map_map]

theorem validItems_of_validPairs (pairs : List (Bytes × Bytes))
    (hv : validPairs pairs) : validItems (rawOf pairs) := by
  obtain ⟨hp, hnd, hc, hd, hcd⟩ := hv
  refine ⟨?_, by simpa [rawOf] using hc, hd, hcd⟩
  intro e he
  simp only [rawOf, List.mem_map] at he
  obtain ⟨p, hpmem, hpe⟩ := he
  obtain ⟨_, hn1, hn2, hc1, hc2⟩ := hp p hpmem
  rw [← hpe]
  exact ⟨crc32_lt p.2 hc1, hc2, hn2⟩

/-- C1: for every set of (path, bytes) pairs with valid names, writing them
into an archive, finalizing it, opening the resulting bytes, and reading
each path back returns content bytes identical to the original bytes
supplied for that path. -/
theorem c1_round_trip (pairs : List (Bytes × Bytes)) (hv : validPairs pairs)
    (n c : Bytes) (hm : (n, c) ∈ pairs) :
    ∃ archive rd, writePairs pairs = .ok archive ∧
      openArchive archive = .ok rd ∧ readEntry rd n = .ok c := by
  have hp := hv.1
  have hnd := hv.2.1
  have hpaths : ∀ p ∈ pairs, pathOk p.1 = true := fun p h => (hp p h).1
  have hvi := validItems_of_validPairs pairs hv
  have hnodup : ((rawOf pairs).map RawEntry.name).Nodup := by
    rw [rawOf_names]; exact hnd
  refine ⟨genArchive (rawOf pairs),
    ⟨genArchive (rawOf pairs), recsOf (rawOf pairs) 0⟩,
    writePairs_ok pairs hpaths hnd, openArchive_gen _ hvi, ?_⟩
  have he : (⟨n, crc32 c, c⟩ : RawEntry) ∈ rawOf pairs := by
    simp only [rawOf, List.mem_map]
    exact ⟨(n, c), hm, rfl⟩
  have hre := readEntry_gen (rawOf pairs) hvi hnodup ⟨n, crc32 c, c⟩ he
  simpa using hre

theorem c1_round_trip_witness :
    validPairs [([97], [10, 20]), ([98, 47, 99], [])] ∧
    ∃ archive rd,
      writePairs [([97], [10, 20]), ([98, 47, 99], [])] = .ok archive ∧
      openArchive archive = .ok rd ∧ readEntry rd [97] = .ok [10, 20] :=
  ⟨by decide, c1_round_trip _ (by decide) [97] [10, 20] (by decide)⟩

/-- C2: adding a file under an absolute path or a path containing a `..`
segment to an archive under construction fails with the typed error
`InvalidPath`. -/
theorem c2_invalid_path (w : Writer) (hw : w.sealed = false) (n c : Bytes)
    (h : isAbsPath n = true ∨ hasDotDot n = true) :
    addFile w n c = .error .InvalidPath := by
  unfold addFile
  rw [if_neg (by simp [hw]), if_pos]
  rcases h with h | h <;> simp [pathOk, h]

theorem c2_invalid_path_witness :
    beginWriter.sealed = false ∧
    (isAbsPath [46, 46, 47, 120] = true ∨
      hasDotDot [46, 46, 47, 120] = true) ∧
    addFile beginWriter [46, 46, 47, 120] [120] = .error .InvalidPath ∧
    addFile beginWriter [47, 97, 98, 115] [120] = .error .InvalidPath :=
  ⟨rfl, Or.inr (by decide),
    c2_invalid_path beginWriter rfl _ _ (Or.inr (by decide)),
    c2_invalid_path beginWriter rfl _ _ (Or.inl (by decide))⟩

/-- C6: every member of an archive produced by this Writer reports equal
compressed and uncompressed sizes, because every entry is written with the
stored (no compression) method. -/
theorem c6_stored_sizes (pairs : List (Bytes × Bytes))
    (hv : validPairs pairs) :
    ∃ archive rd, writePairs pairs = .ok archive ∧
      openArchive archive = .ok rd ∧
      ∀ r ∈ listEntries rd, r.compSize = r.uncompSize := by
  have hp := hv.1
  have hnd := hv.2.1
  have hpaths : ∀ p ∈ pairs, pathOk p.1 = true := fun p h => (hp p h).1
  have hvi := validItems_of_validPairs pairs hv
  refine ⟨genArchive (rawOf pairs),
    ⟨genArchive (rawOf pairs), recsOf (rawOf pairs) 0⟩,
    writePairs_ok pairs hpaths hnd, openArchive_gen _ hvi, ?_⟩
  intro r hr
  simp only [listEntries] at hr
  obtain ⟨e, _, _, _, hcomp, huncomp, _⟩ := recsOf_mem (rawOf pairs) 0 r hr
  rw [hcomp, huncomp]

theorem c6_stored_sizes_witness :
    validPairs [([100], [7, 8, 9])] ∧
    ∃ archive rd, writePairs [([100], [7, 8, 9])] = .ok archive ∧
      openArchive archive = .ok rd ∧
      ∀ r ∈ listEntries rd, r.compSize = r.uncompSize :=
  ⟨by decide, c6_stored_sizes _ (by decide)⟩

theorem list_set_of_get {α : Type} (l : List α) (k : Nat) (a : α)
    (h : l.get? k = some a) : l.set k a = l := by
  induction l generalizing k with
  | nil => rfl
  | cons x t ih =>
    cases k with
    | zero =>
      simp only [List.get?_cons_zero, Option.some.injEq] at h
      simp [h]
    | succ m =>
      simp only [List.set_cons_succ, List.cons.injEq, true_and]
      exact ih m (by simpa using h)

/-- Corrupt an archive member list: flip bit `j` of byte `i` of the `k`-th
member's stored content, leaving its CRC field untouched. -/
def corruptAt (items : List RawEntry) (k i j : Nat) : List RawEntry :=
  match items.get? k with
  | some e => items.set k ⟨e.name, e.crc, flipBit e.content i j⟩
  | none => items

theorem recsOf_set_flip (items : List RawEntry) (k i j : Nat) (e : RawEntry)
    (hk : items.get? k = some e) (hi : i < e.content.length) (b : Nat) :
    recsOf (items.set k ⟨e.name, e.crc, flipBit e.content i j⟩) b =
      recsOf items b := by
  induction items generalizing k b with
  | nil => rfl
  | cons x t ih =>
    cases k with
    | zero =>
      simp only [List.get?_cons_zero, Option.some.injEq] at hk
      subst hk
      simp [recsOf, localBlockG_length, flipBit_length _ _ _ hi]
    | succ m =>
      simp only [List.set_cons_succ]
      rw [recsOf, recsOf]
      rw [ih m (by simpa using hk)]

theorem genData_set_flip_length (items : List RawEntry) (k i j : Nat)
    (e : RawEntry) (hk : items.get? k = some e)
    (hi : i < e.content.length) :
    (genData (items.set k ⟨e.name, e.crc, flipBit e.content i j⟩)).length =
      (genData items).length := by
  induction items generalizing k with
  | nil => rfl
  | cons x t ih =>
    cases k with
    | zero =>
      simp only [List.get?_cons_zero, Option.some.injEq] at hk
      subst hk
      simp [genData, localBlockG_length, flipBit_length _ _ _ hi]
    | succ m =>
      simp only [List.set_cons_succ, genData, List.map_cons,
        List.flatten_cons, List.length_append]
      have := ih m (by simpa using hk)
      simp only [genData] at this
      omega

/-- C4: for every stored member of a written archive, flipping any single
bit of that member's content bytes without updating its CRC-32 field makes
reading that entry fail with the typed error `IntegrityError`. -/
theorem c4_crc_detects_flip (pairs : List (Bytes × Bytes))
    (hv : validPairs pairs) (k i j : Nat) (n c : Bytes)
    (hk : pairs.get? k = some (n, c)) (hi : i < c.length) (hj : j < 8) :
    ∃ rd, openArchive (genArchive (corruptAt (rawOf pairs) k i j)) = .ok rd ∧
      readEntry rd n = .error .IntegrityError := by
  have hp := hv.1
  have hnd := hv.2.1
  have hvi := validItems_of_validPairs pairs hv
  have hpair : (n, c) ∈ pairs := List.get?_mem hk
  obtain ⟨_, hnb, hnlen, hcb, hclen⟩ := hp (n, c) hpair
  have hk2 : (rawOf pairs).get? k = some ⟨n, crc32 c, c⟩ := by
    unfold rawOf
    rw [List.get?_eq_getElem?] at hk ⊢
    rw [List.getElem?_map, hk]
    rfl
  have hcor : corruptAt (rawOf pairs) k i j =
      (rawOf pairs).set k ⟨n, crc32 c, flipBit c i j⟩ := by
    unfold corruptAt
    rw [hk2]
  have hklt : k < (rawOf pairs).length := by
    rcases List.get?_eq_some.mp hk2 with ⟨hlt, _⟩
    exact hlt
  have hset_names : ((rawOf pairs).set k
      ⟨n, crc32 c, flipBit c i j⟩).map RawEntry.name =
      (rawOf pairs).map RawEntry.name := by
    rw [List.map_set]
    apply list_set_of_get
    rw [List.get?_eq_getElem?, List.getElem?_map]
    rw [List.get?_eq_getElem?] at hk2
    rw [hk2]
    rfl
  have hnodup2 : (((rawOf pairs).set k
      ⟨n, crc32 c, flipBit c i j⟩).map RawEntry.name).Nodup := by
    rw [hset_names, rawOf_names]
    exact hnd
  have hvi2 : validItems ((rawOf pairs).set k ⟨n, crc32 c, flipBit c i j⟩) := by
    obtain ⟨hvall, hvcount, hvdata, hvcd⟩ := hvi
    refine ⟨?_, by simpa using hvcount, ?_, ?_⟩
    · intro x hx
      rcases List.mem_or_eq_of_mem_set hx with hx2 | hx2
      · exact hvall x hx2
      · rw [hx2]
        refine ⟨crc32_lt c (by simpa using hcb), ?_, by simpa using hnlen⟩
        show (flipBit c i j).length < 2 ^ 32
        rw [flipBit_length c i j hi]
        simpa using hclen
    · rw [genData_set_flip_length (rawOf pairs) k i j ⟨n, crc32 c, c⟩ hk2 hi]
      exact hvdata
    · have := recsOf_set_flip (rawOf pairs) k i j ⟨n, crc32 c, c⟩ hk2 hi 0
      simp only [genCd, this]
      exact hvcd
  have hmem2 : (⟨n, crc32 c, flipBit c i j⟩ : RawEntry) ∈
      (rawOf pairs).set k ⟨n, crc32 c, flipBit c i j⟩ := by
    apply List.get?_mem (n := k)
    simp [List.get?_eq_getElem?, List.getElem?_set_self', hklt]
  rw [hcor]
  refine ⟨_, openArchive_gen _ hvi2, ?_⟩
  have hre := readEntry_gen _ hvi2 hnodup2 ⟨n, crc32 c, flipBit c i j⟩ hmem2
  have hcrcne : crc32 (flipBit c i j) ≠ crc32 c :=
    crc32_flipBit_ne c i j hcb hi hj
  rw [if_neg hcrcne] at hre
  exact hre

theorem c4_crc_detects_flip_witness :
    validPairs [([97], [10, 20])] ∧
    [([97], [10, 20])].get? 0 = some ([97], [10, 20]) ∧
    (0 : Nat) < [10, 20].length ∧ (3 : Nat) < 8 ∧
    ∃ rd, openArchive (genArchive (corruptAt (rawOf [([97], [10, 20])]) 0 0 3)) =
        .ok rd ∧
      readEntry rd [97] = .error .IntegrityError :=
  ⟨by decide, by decide, by decide, by decide,
    c4_crc_detects_flip [([97], [10, 20])] (by decide) 0 0 3 [97] [10, 20]
      (by decide) (by decide) (by decide)⟩

end Zip

namespace OneZip

/-- A filesystem snapshot: a file with its content bytes, or a directory
with an ordered list of named children — the order in which `Deno.readDir`
yields them for this snapshot. -/
inductive FsTree where
  | file (content : List Nat)
  | dir (entries : List (String × FsTree))

/-- The relative path computed by `addDirectoryToZip` (source line 47):
`basePath ? basePath + "/" + entry.name : entry.name` (an empty base string
is falsy in JS). -/
def mkRel (base name : String) : String :=
  if base = "" then name else base ++ "/" ++ name

/-- The recursive walk of `addDirectoryToZip` (source lines 44-56), as the
ordered list of (relativePath, content) file entries it adds: a file child
is added with `{ level: 0 }`; a directory child is recursed into; no
directory entry is ever added. -/
def walkDir (base : String) : List (String × FsTree) → List (String × List Nat)
  | [] => []
  | (name, FsTree.file data) :: rest =>
      (mkRel base name, data) :: walkDir base rest
  | (name, FsTree.dir subs) :: rest =>
      walkDir (mkRel base name) subs ++ walkDir base rest

/-- The files of a snapshot with their paths relative to the snapshot root,
in depth-first pre-order — the specification the walk is compared with. -/
def fileList : List (String × FsTree) → List (String × List Nat)
  | [] => []
  | (n, FsTree.file d) :: rest => (n, d) :: fileList rest
  | (n, FsTree.dir subs) :: rest =>
      (fileList subs).map (fun pc => (n ++ "/" ++ pc.1, pc.2)) ++ fileList rest

/-- Every entry name in the snapshot is nonempty, as in any real directory
listing. -/
def namesOk : List (String × FsTree) → Bool
  | [] => true
  | (n, FsTree.file _) :: rest => !(n == "") && namesOk rest
  | (n, FsTree.dir subs) :: rest => !(n == "") && namesOk subs && namesOk rest

theorem str_ext {a b : String} (h : a.data = b.data) : a = b := by
  cases a with
  | mk d1 =>
    cases b with
    | mk d2 => exact congrArg String.mk (by simpa using h)

theorem append_slash_ne_empty (base n : String) : base ++ "/" ++ n ≠ "" := by
  intro h
  have := congrArg String.data h
  simp [String.data_append] at this

theorem mkRel_assoc (base n p : String) (hn : n ≠ "") :
    mkRel base (n ++ "/" ++ p) = mkRel (mkRel base n) p := by
  unfold mkRel
  by_cases hb : base = ""
  · rw [if_pos hb, if_pos hb, if_neg hn]
  · rw [if_neg hb, if_neg hb, if_neg (append_slash_ne_empty base n)]
    simp only [String.append_assoc]

theorem walkDir_eq_fileList (es : List (String × FsTree)) (base : String)
    (h : namesOk es = true) :
    walkDir base es = (fileList es).map (fun pc => (mkRel base pc.1, pc.2)) := by
  induction es using fileList.induct generalizing base with
  | case1 => simp [walkDir, fileList]
  | case2 n d rest ih =>
    simp only [namesOk, Bool.and_eq_true] at h
    simp [walkDir, fileList, ih base h.2]
  | case3 n subs rest ih1 ih2 =>
    simp only [namesOk, Bool.and_eq_true] at h
    have hn : n ≠ "" := by simpa using h.1.1
    simp only [walkDir, fileList, List.map_append, List.map_map]
    rw [ih1 (mkRel base n) h.1.2, ih2 base h.2]
    congr 1
    apply List.map_congr_left
    intro pc hpc
    simp only [Function.comp]
    rw [mkRel_assoc base n pc.1 hn]

theorem walkDir_append (base : String) (xs ys : List (String × FsTree)) :
    walkDir base (xs ++ ys) = walkDir base xs ++ walkDir base ys := by
  induction xs with
  | nil => simp [walkDir]
  | cons hd tl ih =>
    obtain ⟨n, t⟩ := hd
    cases t with
    | file d => simp [walkDir, ih]
    | dir subs => simp [walkDir, ih, List.append_assoc]

/-- UTF-8 bytes of a string, for handing walk entries to the Writer. -/
def strBytes (s : String) : List Nat := s.toUTF8.toList.map (fun b => b.toNat)

/-- The archive built from a directory snapshot: the walk's entries handed
to the Writer in visit order, then finalized (source lines 33-38). -/
def zipOfDir (s : List (String × FsTree)) : Except Zip.ZipError Zip.Bytes :=
  Zip.writePairs ((walkDir "" s).map (fun pc => (strBytes pc.1, pc.2)))

/-- C3: for a fixed filesystem snapshot (which determines the enumeration
order of each directory), the tree walk visits entries in one fixed order —
it is a function of the snapshot, characterized as the depth-first
pre-order file listing — so two runs produce identical entry sequences and
identical archive bytes. -/
theorem c3_walk_deterministic (s1 s2 : List (String × FsTree)) (base : String)
    (h : s1 = s2) (hnames : namesOk s1 = true) :
    walkDir base s1 = walkDir base s2 ∧ zipOfDir s1 = zipOfDir s2 ∧
    walkDir base s1 =
      (fileList s1).map (fun pc => (mkRel base pc.1, pc.2)) := by
  subst h
  exact ⟨rfl, rfl, walkDir_eq_fileList s1 base hnames⟩

theorem c3_walk_deterministic_witness :
    namesOk [("a", FsTree.file [1]), ("b", FsTree.dir [("c", FsTree.file [2])])] = true ∧
    (walkDir "" [("a", FsTree.file [1]), ("b", FsTree.dir [("c", FsTree.file [2])])] =
        walkDir "" [("a", FsTree.file [1]), ("b", FsTree.dir [("c", FsTree.file [2])])] ∧
      zipOfDir [("a", FsTree.file [1]), ("b", FsTree.dir [("c", FsTree.file [2])])] =
        zipOfDir [("a", FsTree.file [1]), ("b", FsTree.dir [("c", FsTree.file [2])])] ∧
      walkDir "" [("a", FsTree.file [1]), ("b", FsTree.dir [("c", FsTree.file [2])])] =
        (fileList [("a", FsTree.file [1]), ("b", FsTree.dir [("c", FsTree.file [2])])]).map
          (fun pc => (mkRel "" pc.1, pc.2))) :=
  ⟨by simp [namesOk],
    c3_walk_deterministic _ _ "" rfl (by simp [namesOk])⟩

/-- C8: when compressing a directory tree only file entries are added: the
member names are exactly the relative paths of the snapshot's files, and
inserting an empty directory anywhere in a directory listing contributes no
member at all. -/
theorem c8_no_directory_members (base : String) (es : List (String × FsTree))
    (hnames : namesOk es = true) :
    ((walkDir base es).map Prod.fst =
      (fileList es).map (fun pc => mkRel base pc.1)) ∧
    ∀ pre post n, walkDir base (pre ++ (n, FsTree.dir []) :: post) =
      walkDir base (pre ++ post) := by
  constructor
  · rw [walkDir_eq_fileList es base hnames]
    simp [List.map_map]
  · intro pre post n
    rw [walkDir_append, walkDir_append]
    congr 1
    simp [walkDir]

theorem c8_no_directory_members_witness :
    namesOk [("a", FsTree.file [1])] = true ∧
    ((walkDir "" [("a", FsTree.file [1])]).map Prod.fst =
      (fileList [("a", FsTree.file [1])]).map (fun pc => mkRel "" pc.1)) ∧
    walkDir "" ([("a", FsTree.file [1])] ++ ("d", FsTree.dir []) :: []) =
      walkDir "" ([("a", FsTree.file [1])] ++ []) :=
  ⟨by simp [namesOk],
    (c8_no_directory_members "" [("a", FsTree.file [1])] (by simp [namesOk])).1,
    (c8_no_directory_members "" [("a", FsTree.file [1])]
      (by simp [namesOk])).2 [("a", FsTree.file [1])] [] "d"⟩

/-- Characters after the last slash of a path. -/
def lastComp (l : List Char) : List Char :=
  (l.reverse.takeWhile (fun c => c != '/')).reverse

def dropTrailingSlashes (l : List Char) : List Char :=
  (l.reverse.dropWhile (fun c => c == '/')).reverse

/-- Modelled std/path `basename(p)`: the last path component, trailing
slashes stripped first. -/
def basenameStr (p : String) : String :=
  String.mk (lastComp (dropTrailingSlashes p.data))

/-- Split a character list on slashes, like std/path segmenting. -/
def splitSlash : List Char → List (List Char)
  | [] => [[]]
  | c :: rest =>
    if c = '/' then [] :: splitSlash rest
    else
      match splitSlash rest with
      | s :: ss => (c :: s) :: ss
      | [] => [[c]]

def joinSlash : List (List Char) → List Char
  | [] => []
  | [s] => s
  | s :: rest => s ++ '/' :: joinSlash rest

/-- Parent of a slash-separated path: all but its last slash-separated
component, `"."` when there is only one.  The extraction-trace model uses
it for `join(outputPath, "..")` on the archive-relative output paths the
loop builds. -/
def dirname (p : String) : String :=
  if (splitSlash p.data).length ≤ 1 then "."
  else String.mk (joinSlash (splitSlash p.data).dropLast)

/-- Modelled std/path `extname(p)`: the basename's suffix from its last
dot; empty when the basename has no dot, only a leading dot, or is exactly
`..` (Node's rule). -/
def extname (p : String) : String :=
  if (basenameStr p).data = ['.', '.'] then ""
  else
    match (basenameStr p).data.reverse.findIdx? (fun c => c == '.') with
    | none => ""
    | some r =>
      if (basenameStr p).data.length - 1 - r = 0 then ""
      else
        String.mk ((basenameStr p).data.drop
          ((basenameStr p).data.length - 1 - r))

/-- Modelled std/path `basename(p, suffix)`: the basename with `suffix`
removed when it is a proper suffix of it (Node keeps the name whole when it
equals the suffix). -/
def bsnmSuffix (p suffix : String) : String :=
  if suffix.data ≠ [] ∧ suffix.data.length < (basenameStr p).data.length ∧
      (basenameStr p).data.drop
        ((basenameStr p).data.length - suffix.data.length) = suffix.data then
    String.mk ((basenameStr p).data.take
      ((basenameStr p).data.length - suffix.data.length))
  else basenameStr p

/-- Modelled std/path `join(a, b)` for a plain relative second component:
concatenation with a separator, a `"."` or `""` first component collapsing
to `b`. -/
def pjoin (a b : String) : String :=
  if a = "" ∨ a = "." then b else a ++ "/" ++ b

/-- Resolve `.` -free segments against a stack, POSIX style: `..` pops the
previous segment, is dropped at the root of an absolute path, and
accumulates at the front of a relative path. -/
def normSegs (abs : Bool) (segs : List (List Char)) : List (List Char) :=
  (segs.foldl (fun st seg =>
    if seg = ['.', '.'] then
      match st with
      | [] => if abs then [] else [seg]
      | top :: tl => if top = ['.', '.'] then seg :: st else tl
    else seg :: st) []).reverse

/-- Modelled std/path posix `normalize(p)`: empty and `.` segments are
dropped, `..` segments resolved (kept at the front of a relative path,
dropped at the root of an absolute one), the leading `/` of an absolute
path and a trailing `/` are preserved, and an empty result collapses to
`/`, `./` or `.`. -/
def posixNormalize (p : String) : String :=
  if p.data = [] then "."
  else
    let abs := p.data.head? == some '/'
    let trail := p.data.getLast? == some '/'
    let segs := (splitSlash p.data).filter
      (fun s => !(s == []) && !(s == ['.']))
    let core := normSegs abs segs
    if core = [] then
      if abs then "/" else if trail then "./" else "."
    else
      let body := if abs then '/' :: joinSlash core else joinSlash core
      String.mk (if trail then body ++ ['/'] else body)

/-- Modelled std/path posix `join(a, b)`: empty parts are skipped, the
rest joined with `/` and normalized; all-empty input gives `.`. -/
def posixJoin (a b : String) : String :=
  if a = "" ∧ b = "" then "."
  else if a = "" then posixNormalize b
  else if b = "" then posixNormalize a
  else posixNormalize (a ++ "/" ++ b)

/-- `compressPath` (source lines 28-35): a regular-file input contributes
one entry named `basename(inputPath)` holding the file bytes; a directory
input contributes the recursive walk from the empty base path. -/
def compressEntries (inputPath : String) (t : FsTree) :
    List (String × List Nat) :=
  match t with
  | FsTree.file data => [(basenameStr inputPath, data)]
  | FsTree.dir es => walkDir "" es

/-- C10: compressing a single file yields exactly one entry, named by the
basename of the input path: the name is slash-free and is a suffix
component of the input path. -/
theorem c10_single_file (p : String) (data : List Nat) :
    compressEntries p (FsTree.file data) = [(basenameStr p, data)] ∧
    (compressEntries p (FsTree.file data)).length = 1 ∧
    '/' ∉ (basenameStr p).data ∧
    ∃ pre, dropTrailingSlashes p.data = pre ++ (basenameStr p).data := by
  refine ⟨by simp [compressEntries], by simp [compressEntries], ?_, ?_⟩
  · intro hmem
    have hmem2 : '/' ∈ lastComp (dropTrailingSlashes p.data) := hmem
    unfold lastComp at hmem2
    rw [List.mem_reverse] at hmem2
    have := List.mem_takeWhile_imp hmem2
    simp at this
  · refine ⟨((dropTrailingSlashes p.data).reverse.dropWhile
      (fun c => c != '/')).reverse, ?_⟩
    have h := List.takeWhile_append_dropWhile (fun c => c != '/')
      (dropTrailingSlashes p.data).reverse
    have h2 := congrArg List.reverse h
    simp only [List.reverse_append, List.reverse_reverse] at h2
    exact h2.symm

/-- The parsed option values of `main` (source lines 108-116): string
options `-c`, `-d`, `-l` and the boolean `--help`. -/
structure ParsedValues where
  compress : Option String
  decompress : Option String
  list : Option String
  help : Bool
deriving DecidableEq

/-- JS truthiness of a string option value: an empty string is falsy. -/
def truthy : Option String → Bool
  | some s => !(s == "")
  | none => false

inductive Action where
  | showHelp (exitCode : Nat)
  | compressTo (input output : String)
  | extractTo (input outDir : String)
  | listContents (input : String)
deriving DecidableEq

/-- The extraction output directory of `decompressZip` (source lines
63-65): `join(join(zipPath, ".."), basename(zipPath, extname(zipPath)))`,
with both joins the modelled std/path posix `join`. -/
def extractOutDir (zipPath : String) : String :=
  posixJoin (posixJoin zipPath "..")
    (bsnmSuffix zipPath (extname zipPath))

/-- The dispatch of `main` (source lines 102-133): empty argv shows help
with exit 0; the help flag shows help with exit 0; otherwise the first
truthy option of compress/decompress/list selects the operation, the
compress output being `inputPath + ".zip"` (source line 26); if nothing is
selected, help with exit 1. -/
def dispatch (args : List String) (v : ParsedValues) : Action :=
  if args.length = 0 then .showHelp 0
  else if v.help then .showHelp 0
  else if truthy v.compress then
    .compressTo (v.compress.getD "") (v.compress.getD "" ++ ".zip")
  else if truthy v.decompress then
    .extractTo (v.decompress.getD "") (extractOutDir (v.decompress.getD ""))
  else if truthy v.list then .listContents (v.list.getD "")
  else .showHelp 1

/-- C5 counterexample input: with the empty-string path, `-c ""` parses to
a falsy option value, so the code shows help and exits 1 instead of
compressing to `".zip"`. -/
theorem c5_counterexample :
    dispatch ["-c", ""] ⟨some "", none, none, false⟩ = .showHelp 1 ∧
    Action.showHelp 1 ≠ Action.compressTo "" ".zip" := by
  constructor
  · decide
  · decide

/-- C5 (amended): for every non-empty PATH, `-c PATH` maps to compression
writing the archive at `PATH + ".zip"`, and `-d PATH` maps to extraction
into `join(join(PATH, ".."), basename(PATH, extname(PATH)))` — the
directory named by PATH's basename with its extension stripped, joined
onto PATH's parent directory, next to the archive. -/
theorem c5_cli_mapping (p : String) (hp : p ≠ "") :
    dispatch ["-c", p] ⟨some p, none, none, false⟩ =
      .compressTo p (p ++ ".zip") ∧
    dispatch ["-d", p] ⟨none, some p, none, false⟩ =
      .extractTo p (posixJoin (posixJoin p "..")
        (bsnmSuffix p (extname p))) := by
  constructor <;> simp [dispatch, truthy, hp, extractOutDir]

theorem c5_cli_mapping_witness :
    ("tmp.zip" : String) ≠ "" ∧
    (dispatch ["-c", "tmp.zip"] ⟨some "tmp.zip", none, none, false⟩ =
      .compressTo "tmp.zip" "tmp.zip.zip" ∧
    dispatch ["-d", "tmp.zip"] ⟨none, some "tmp.zip", none, false⟩ =
      .extractTo "tmp.zip" (posixJoin (posixJoin "tmp.zip" "..")
        (bsnmSuffix "tmp.zip" (extname "tmp.zip")))) ∧
    extractOutDir "tmp.zip" = "tmp" ∧
    extractOutDir "/x.zip" = "/x" ∧
    extractOutDir "tmp/" = "tmp" ∧
    extractOutDir "a/b.zip" = "a/b" :=
  ⟨by decide, c5_cli_mapping "tmp.zip" (by decide),
    by decide, by decide, by decide, by decide⟩

inductive OpResult where
  | success
  | failure (msg : String)
deriving DecidableEq

/-- Observable outcome of one `main` run: process exit code, whether help
was printed, and the printed error message if any. -/
structure MainOutcome where
  exitCode : Nat
  printedHelp : Bool
  errorMsg : Option String
deriving DecidableEq

def isOpAction : Action → Bool
  | .showHelp _ => false
  | _ => true

/-- The control flow of `main` (source lines 102-138): a help dispatch
prints the help text and exits with its code; a selected operation runs
inside try/catch — on success main returns normally (exit code 0), and a
thrown error has its message printed and the process exits 1. -/
def mainModel (args : List String) (v : ParsedValues) (opRes : OpResult) :
    MainOutcome :=
  match dispatch args v with
  | .showHelp code => ⟨code, true, none⟩
  | _ =>
    match opRes with
    | .success => ⟨0, false, none⟩
    | .failure msg => ⟨1, false, some msg⟩

/-- C9: zero arguments prints help and exits 0; arguments that select no
valid operation print help and exit 1; and a selected operation that
throws has its message printed and the program exits 1 — no error is
swallowed. -/
theorem c9_exit_codes (args : List String) (v : ParsedValues) (r : OpResult) :
    (args = [] → mainModel args v r = ⟨0, true, none⟩) ∧
    (args ≠ [] → v.help = false → truthy v.compress = false →
      truthy v.decompress = false → truthy v.list = false →
      mainModel args v r = ⟨1, true, none⟩) ∧
    (∀ msg, isOpAction (dispatch args v) = true → r = .failure msg →
      mainModel args v r = ⟨1, false, some msg⟩) := by
  refine ⟨?_, ?_, ?_⟩
  · intro h
    subst h
    simp [mainModel, dispatch]
  · intro h1 h2 h3 h4 h5
    have hlen : ¬ args.length = 0 := by
      simpa [List.length_eq_zero] using h1
    simp [mainModel, dispatch, hlen, h2, h3, h4, h5]
  · intro msg hop hr
    subst hr
    rcases hd : dispatch args v with code | ⟨a, b⟩ | ⟨a, b⟩ | a
    · rw [hd] at hop
      simp [isOpAction] at hop
    · simp [mainModel, hd]
    · simp [mainModel, hd]
    · simp [mainModel, hd]

theorem c9_exit_codes_witness :
    mainModel [] ⟨none, none, none, false⟩ .success = ⟨0, true, none⟩ ∧
    mainModel ["-c", ""] ⟨some "", none, none, false⟩ .success =
      ⟨1, true, none⟩ ∧
    mainModel ["-c", "a"] ⟨some "a", none, none, false⟩ (.failure "boom") =
      ⟨1, false, some "boom"⟩ :=
  ⟨(c9_exit_codes [] ⟨none, none, none, false⟩ .success).1 rfl,
    (c9_exit_codes ["-c", ""] ⟨some "", none, none, false⟩ .success).2.1
      (by decide) rfl (by decide) rfl rfl,
    (c9_exit_codes ["-c", "a"] ⟨some "a", none, none, false⟩
      (.failure "boom")).2.2 "boom" (by decide) rfl⟩

/-- One archive entry as the extraction loop of `decompressZip` sees it
(source lines 67-80): stored filename, directory flag, decompressed
content bytes. -/
structure ZEntry where
  filename : String
  directory : Bool
  content : List Nat
deriving DecidableEq

/-- A filesystem mutation issued during extraction. -/
inductive FsOp where
  | mkdirRec (path : String)
  | writeFile (path : String) (content : List Nat)
deriving DecidableEq

/-- The filesystem operations of the `decompressZip` loop (source lines
67-80), in entry order: a directory entry is one recursive mkdir of its
path under the output root; a file entry first recursively creates
`join(outputPath, "..")` — its parent directory — and then writes the
content bytes to `outputPath`. -/
def extractOps (outDir : String) : List ZEntry → List FsOp
  | [] => []
  | e :: rest =>
    (if e.directory then [FsOp.mkdirRec (pjoin outDir e.filename)]
     else [FsOp.mkdirRec (dirname (pjoin outDir e.filename)),
       FsOp.writeFile (pjoin outDir e.filename) e.content]) ++
      extractOps outDir rest

/-- Abstract filesystem state: directories for which a recursive mkdir was
issued, and written files, newest write first. -/
structure FsState where
  dirs : List String
  files : List (String × List Nat)
deriving DecidableEq

def applyOp (s : FsState) : FsOp → FsState
  | .mkdirRec p => ⟨p :: s.dirs, s.files⟩
  | .writeFile p c => ⟨s.dirs, (p, c) :: s.files⟩

def runOps (s : FsState) (ops : List FsOp) : FsState := ops.foldl applyOp s

/-- The content seen at a path: the newest write wins. -/
def lookupFile (s : FsState) (p : String) : Option (List Nat) :=
  (s.files.find? (fun pc => pc.1 == p)).map Prod.snd

/-- Every write in the trace targets a path whose parent directory was
created by an earlier operation of the trace (or was already in `made`). -/
def parentsReady (made : List String) : List FsOp → Bool
  | [] => true
  | .mkdirRec p :: rest => parentsReady (p :: made) rest
  | .writeFile p _ :: rest =>
      made.contains (dirname p) && parentsReady made rest

theorem runOps_append (s : FsState) (a b : List FsOp) :
    runOps s (a ++ b) = runOps (runOps s a) b := by
  simp [runOps, List.foldl_append]

theorem runOps_dirs_mono (ops : List FsOp) (s : FsState) (x : String)
    (hx : x ∈ s.dirs) : x ∈ (runOps s ops).dirs := by
  induction ops generalizing s with
  | nil => exact hx
  | cons op rest ih =>
    cases op with
    | mkdirRec p =>
      exact ih ⟨p :: s.dirs, s.files⟩ (by simp [hx])
    | writeFile p c =>
      exact ih ⟨s.dirs, (p, c) :: s.files⟩ hx

theorem pjoin_inj (a x y : String) (h : pjoin a x = pjoin a y) : x = y := by
  unfold pjoin at h
  split at h
  · exact h
  · have hd := congrArg String.data h
    simp only [String.data_append, List.append_assoc] at hd
    have := List.append_cancel_left (List.append_cancel_left hd)
    exact str_ext this

theorem extract_dirs (outDir : String) :
    ∀ (entries : List ZEntry), ∀ e ∈ entries, e.directory = true →
      ∀ s : FsState,
      pjoin outDir e.filename ∈ (runOps s (extractOps outDir entries)).dirs
  | [] => by simp
  | e0 :: rest => by
    intro e he hdir s
    rw [extractOps, runOps_append]
    rcases List.mem_cons.mp he with rfl | he2
    · apply runOps_dirs_mono
      rw [if_pos hdir]
      simp [runOps, applyOp]
    · exact extract_dirs outDir rest e he2 hdir _

theorem lookup_untouched (outDir : String) :
    ∀ (entries : List ZEntry) (p : String),
      (∀ e ∈ entries, pjoin outDir e.filename ≠ p) → ∀ s : FsState,
      lookupFile (runOps s (extractOps outDir entries)) p = lookupFile s p
  | [], p, _, s => rfl
  | e0 :: rest, p, hnone, s => by
    rw [extractOps, runOps_append]
    rw [lookup_untouched outDir rest p (fun e he => hnone e (by simp [he])) _]
    have hne : pjoin outDir e0.filename ≠ p := hnone e0 (by simp)
    by_cases hdir : e0.directory
    · rw [if_pos hdir]
      rfl
    · rw [if_neg hdir]
      show lookupFile ⟨dirname (pjoin outDir e0.filename) :: s.dirs,
        (pjoin outDir e0.filename, e0.content) :: s.files⟩ p = lookupFile s p
      have hbeq : ((pjoin outDir e0.filename, e0.content).1 == p) = false := by
        simpa using hne
      simp [lookupFile, List.find?_cons, hbeq]

theorem extract_files (outDir : String) :
    ∀ (entries : List ZEntry),
      (entries.map ZEntry.filename).Nodup →
      ∀ e ∈ entries, e.directory = false → ∀ s : FsState,
      lookupFile (runOps s (extractOps outDir entries))
        (pjoin outDir e.filename) = some e.content
  | [] => by simp
  | e0 :: rest => by
    intro hnodup e he hfile s
    simp only [List.map_cons, List.nodup_cons] at hnodup
    rw [extractOps, runOps_append]
    rcases List.mem_cons.mp he with rfl | he2
    · have hnone : ∀ e2 ∈ rest,
          pjoin outDir e2.filename ≠ pjoin outDir e.filename := by
        intro e2 he2 hcon
        have := pjoin_inj outDir _ _ hcon
        exact hnodup.1 (this ▸ List.mem_map_of_mem ZEntry.filename he2)
      rw [lookup_untouched outDir rest _ hnone _]
      rw [if_neg (by rw [hfile]; exact Bool.false_ne_true)]
      show lookupFile ⟨dirname (pjoin outDir e.filename) :: s.dirs,
        (pjoin outDir e.filename, e.content) :: s.files⟩
        (pjoin outDir e.filename) = some e.content
      simp [lookupFile, List.find?_cons]
    · exact extract_files outDir rest hnodup.2 e he2 hfile _

theorem extract_parents (outDir : String) :
    ∀ (entries : List ZEntry) (made : List String),
      parentsReady made (extractOps outDir entries) = true
  | [], _ => rfl
  | e0 :: rest, made => by
    rw [extractOps]
    by_cases hdir : e0.directory
    · rw [if_pos hdir]
      simp only [List.singleton_append]
      rw [parentsReady]
      exact extract_parents outDir rest _
    · rw [if_neg hdir]
      simp only [List.cons_append, List.nil_append]
      rw [parentsReady, parentsReady]
      rw [extract_parents outDir rest _]
      simp [List.contains_cons]

/-- C7: during extraction, in listing order, each directory entry has its
directory created under the destination root, each file entry has its
content bytes written at its relative path under the destination root, and
every write is preceded by the creation of its parent directory. -/
theorem c7_extract_behavior (outDir : String) (entries : List ZEntry)
    (hnodup : (entries.map ZEntry.filename).Nodup) :
    (∀ e ∈ entries, e.directory = true →
      pjoin outDir e.filename ∈
        (runOps ⟨[], []⟩ (extractOps outDir entries)).dirs) ∧
    (∀ e ∈ entries, e.directory = false →
      lookupFile (runOps ⟨[], []⟩ (extractOps outDir entries))
        (pjoin outDir e.filename) = some e.content) ∧
    parentsReady [] (extractOps outDir entries) = true :=
  ⟨fun e he hd => extract_dirs outDir entries e he hd ⟨[], []⟩,
    fun e he hf => extract_files outDir entries hnodup e he hf ⟨[], []⟩,
    extract_parents outDir entries []⟩

theorem c7_extract_behavior_witness :
    ([⟨"sub", true, []⟩, ⟨"a.txt", false, [1, 2]⟩].map
      ZEntry.filename).Nodup ∧
    pjoin "out" "sub" ∈ (runOps ⟨[], []⟩ (extractOps "out"
      [⟨"sub", true, []⟩, ⟨"a.txt", false, [1, 2]⟩])).dirs ∧
    lookupFile (runOps ⟨[], []⟩ (extractOps "out"
        [⟨"sub", true, []⟩, ⟨"a.txt", false, [1, 2]⟩]))
      (pjoin "out" "a.txt") = some [1, 2] ∧
    parentsReady [] (extractOps "out"
      [⟨"sub", true, []⟩, ⟨"a.txt", false, [1, 2]⟩]) = true :=
  ⟨by decide,
    (c7_extract_behavior "out" [⟨"sub", true, []⟩, ⟨"a.txt", false, [1, 2]⟩]
      (by decide)).1 ⟨"sub", true, []⟩ (by decide) rfl,
    (c7_extract_behavior "out" [⟨"sub", true, []⟩, ⟨"a.txt", false, [1, 2]⟩]
      (by decide)).2.1 ⟨"a.txt", false, [1, 2]⟩ (by decide) rfl,
    (c7_extract_behavior "out" [⟨"sub", true, []⟩, ⟨"a.txt", false, [1, 2]⟩]
      (by decide)).2.2⟩

end OneZip
